import Mathlib

/-!
Verification of the associative key-value memory module (`memory.py`).

The memory stores `memory_size` slots, each holding a key vector, an integer
label and an age.  Queries retrieve the `top_k` nearest stored keys by cosine
similarity, produce a prediction and a softmax confidence, optionally a margin
hinge loss, and then mutate the store: correct matches blend the matched key
with the query, incorrect matches overwrite the slots with the largest
noise-perturbed age.

Vectors are modelled as lists of real numbers; the random age noise and the
initial random key matrix are threaded through as explicit arguments.
-/

namespace LSHMem

/-- A vector (one row of a torch tensor), as a list of reals. -/
abbrev Vec := List ℝ

/-- Dot product of two vectors (`torch.matmul` of a row with a column). -/
def dot (u v : Vec) : ℝ := (List.zipWith (· * ·) u v).sum

/-- Squared L2 norm of a vector. -/
def normSq (v : Vec) : ℝ := dot v v

/-- L2 norm of a vector. -/
noncomputable def norm2 (v : Vec) : ℝ := Real.sqrt (normSq v)

/-- Elementwise sum of two vectors (tensor addition of rows). -/
def vadd (u v : Vec) : Vec := List.zipWith (· + ·) u v

/-- L2 normalization of a vector, `F.normalize`: divide every entry by the
norm.  On the zero vector the division is by zero, which in the idealized
(eps-free) reading returns the zero vector again, exactly as in torch. -/
noncomputable def normalize (v : Vec) : Vec := v.map (fun a => a / norm2 v)

/-- The zero-vector predicate: every entry is `0`. -/
def isZeroVec (v : Vec) : Prop := ∀ a ∈ v, a = 0

/-- Maximum of a list of reals (`torch.topk(xs, 1)` value); `0` for `[]`. -/
def listMax : List ℝ → ℝ
  | [] => 0
  | x :: xs => xs.foldl max x

/-- Insert index `i` into an index list sorted by descending score: `i` goes
after all already-present indices whose score is at least `s i`.  Folding
this over `0, 1, 2, …` yields a stable descending argsort. -/
def insertRank {α : Type} [LinearOrder α] (s : ℕ → α) (i : ℕ) : List ℕ → List ℕ
  | [] => [i]
  | j :: rest => if s i ≤ s j then j :: insertRank s i rest else i :: j :: rest

/-- Stable argsort of `0, …, n-1` by descending score: ties keep the smaller
index first, matching a deterministic `torch.topk`/`torch.sort`. -/
def argsortDesc {α : Type} [LinearOrder α] (s : ℕ → α) (n : ℕ) : List ℕ :=
  (List.range n).foldl (fun acc i => insertRank s i acc) []

/-- Indices of the `k` largest entries of `xs`, in descending order of value
(`torch.topk(xs, k)` indices). -/
noncomputable def topkIdx (xs : List ℝ) (k : ℕ) : List ℕ :=
  (argsortDesc (fun i => xs.getD i 0) xs.length).take k

/-- Sequential indexed writes: `writeList xs ps` performs `xs[i] = v` for each
pair `(i, v)` in `ps`, in order; a later write to the same index wins.  This
models torch scatter-assignment `xs[idx] = vals` with duplicate indices. -/
def writeList {α : Type} (xs : List α) (ps : List (ℕ × α)) : List α :=
  ps.foldl (fun acc p => acc.set p.1 p.2) xs

/-- Indexed assignment `xs[idx] = vals` (rows of `vals` scattered to `idx`). -/
def scatter {α : Type} (xs : List α) (idx : List ℕ) (vals : List α) : List α :=
  writeList xs (idx.zip vals)

/-- Indexed assignment of the scalar zero, `xs[idx] = 0`. -/
def resetZeros (xs : List ℝ) (idx : List ℕ) : List ℝ :=
  writeList xs (idx.map (fun i => (i, 0)))

/-- Row-wise softmax with inverse-temperature multiplier `t` applied first:
`F.softmax(t * sims)`. -/
noncomputable def softmaxRow (t : ℝ) (sims : List ℝ) : List ℝ :=
  let es := sims.map (fun a => Real.exp (t * a))
  es.map (fun e => e / es.sum)

/-- The mutable state of the `Memory` module: stored keys, stored labels and
slot ages (`self.keys`, `self.values`, `self.age`). -/
structure Memory where
  keys : List Vec
  values : List ℤ
  age : List ℝ

/-- The immutable configuration fixed by `Memory.__init__`. -/
structure Config where
  memory_size : ℕ
  key_dim : ℕ
  top_k : ℕ
  softmax_temperature : ℝ
  age_noise : ℝ
  margin : ℝ

/-- `Memory.__init__` configuration: `top_k` is clamped to the memory size,
and the softmax temperature is `max(1, log(0.2 * top_k) / inverse_temp)`
computed from the **raw** `top_k` argument (line 56 of the source reads the
parameter, not the clamped `self.top_k`). -/
noncomputable def mkConfig (memory_size key_dim top_k : ℕ)
    (inverse_temp age_noise margin : ℝ) : Config :=
  { memory_size := memory_size
    key_dim := key_dim
    top_k := min top_k memory_size
    softmax_temperature := max 1 (Real.log (0.2 * (top_k : ℝ)) / inverse_temp)
    age_noise := age_noise
    margin := margin }

/-- `Memory.__init__` state: keys are the rows of the random matrix `raw`,
L2-normalized; values and ages start at zero. -/
noncomputable def initMemory (memory_size : ℕ) (raw : List Vec) : Memory :=
  { keys := raw.map normalize
    values := List.replicate memory_size 0
    age := List.replicate memory_size 0 }

/-- Cosine similarities of one normalized query row against every stored key
(one row of `torch.matmul(query, keys.t())`). -/
def scoresRow (M : Memory) (q : Vec) : List ℝ := M.keys.map (fun k => dot q k)

/-- Indices of the `top_k` nearest stored keys for one query row. -/
noncomputable def topkRow (cfg : Config) (M : Memory) (q : Vec) : List ℕ :=
  topkIdx (scoresRow M q) cfg.top_k

/-- The `top_k` similarity values for one query row, in descending order. -/
noncomputable def simsRow (cfg : Config) (M : Memory) (q : Vec) : List ℝ :=
  (topkRow cfg M q).map (fun i => (scoresRow M q).getD i 0)

/-- The nearest-neighbor slot of one query row (`topk_indices[:, 0]`). -/
noncomputable def top1Row (cfg : Config) (M : Memory) (q : Vec) : ℕ :=
  (topkRow cfg M q).getD 0 0

/-- The predicted label of one query row: the value stored in its top-1 slot. -/
noncomputable def yHatRow (cfg : Config) (M : Memory) (q : Vec) : ℤ :=
  M.values.getD (top1Row cfg M q) 0

/-- The 0/1 correctness mask over the top-k candidates of one row:
`correct_mask[j] = (values[topk_indices[j]] == y)`, as floats. -/
def maskRow (M : Memory) (y : ℤ) (tk : List ℕ) : List ℝ :=
  tk.map (fun i => if M.values.getD i 0 = y then 1 else 0)

/-- Positive score of one row: `topk(cosine_similarity * correct_mask, 1)`,
the maximum of the similarities multiplied elementwise by the mask. -/
noncomputable def posScoreRow (cfg : Config) (M : Memory) (q : Vec) (y : ℤ) : ℝ :=
  listMax (List.zipWith (· * ·) (simsRow cfg M q) (maskRow M y (topkRow cfg M q)))

/-- Negative score of one row: `topk(cosine_similarity * (1 - correct_mask), 1)`. -/
noncomputable def negScoreRow (cfg : Config) (M : Memory) (q : Vec) (y : ℤ) : ℝ :=
  listMax (List.zipWith (· * ·) (simsRow cfg M q)
    ((maskRow M y (topkRow cfg M q)).map (fun m => 1 - m)))

/-- Average hinge loss `mean(clamp(negative - positive + margin, min=0))`. -/
noncomputable def MemoryLoss (positive negative : List ℝ) (margin : ℝ) : ℝ :=
  ((List.zipWith (fun p n => max (n - p + margin) 0) positive negative).sum) /
    (positive.length : ℝ)

/-- Batch rows whose prediction matched the true label
(`correct_examples = nonzero(result)`). -/
def correctRows (y yHat : List ℤ) : List ℕ :=
  (List.range y.length).filter (fun i => yHat.getD i 0 == y.getD i 0)

/-- Batch rows whose prediction differed from the true label
(`incorrect_examples = nonzero(1 - result)`). -/
def incorrectRows (y yHat : List ℤ) : List ℕ :=
  (List.range y.length).filter (fun i => !(yHat.getD i 0 == y.getD i 0))

/-- Steps 1 and 2 of `Memory.update`: age every slot by one, then for each
correct row blend its top-1 key with the query
(`normalize(stored_key + query)`, the stored keys read before any write)
and reset that slot's age to zero. -/
noncomputable def postCorrect (q : List Vec) (y yHat : List ℤ)
    (yHatIdx : List ℕ) (M : Memory) : Memory :=
  let age1 := M.age.map (· + 1)
  let cr := correctRows y yHat
  if cr = [] then { keys := M.keys, values := M.values, age := age1 }
  else
    let cs := cr.map (fun i => yHatIdx.getD i 0)
    let newKeys := cr.map (fun i =>
      normalize (vadd (M.keys.getD (yHatIdx.getD i 0) []) (q.getD i [])))
    { keys := scatter M.keys cs newKeys
      values := M.values
      age := resetZeros age1 cs }

/-- The slots chosen by the eviction step: the indices of the `batch_size`
largest entries of `age + noise` (`torch.topk(age_with_noise, batch_size)`).
Note the source requests `batch_size` slots, not the number of incorrect
rows. -/
noncomputable def evictTargets (noise : List ℝ) (batch : ℕ) (M1 : Memory) : List ℕ :=
  topkIdx (List.zipWith (· + ·) M1.age noise) batch

/-- `Memory.update`: global age tick and correct-row blending, then, if any
row was predicted incorrectly, overwrite the `batch_size` noisiest-age slots
with the **entire batch** of queries and labels and reset their ages
(the source indexes with the full `query.data` and `y.data`, lines 157-163). -/
noncomputable def updateMem (noise : List ℝ) (q : List Vec) (y yHat : List ℤ)
    (yHatIdx : List ℕ) (M : Memory) : Memory :=
  let M1 := postCorrect q y yHat yHatIdx M
  if incorrectRows y yHat = [] then M1
  else
    let tgt := evictTargets noise q.length M1
    { keys := scatter M1.keys tgt q
      values := scatter M1.values tgt y
      age := resetZeros M1.age tgt }

/-- `Memory.query`: normalize the batch, retrieve predictions and softmax
confidences, compute the hinge loss unless `predictFlag` is set, and always
run the update.  Returns `(y_hat, softmax_score, loss, new state)`. -/
noncomputable def queryFn (cfg : Config) (noise : List ℝ) (x : List Vec)
    (y : List ℤ) (predictFlag : Bool) (M : Memory) :
    List ℤ × List (List ℝ) × Option ℝ × Memory :=
  let q := x.map normalize
  let yHat := q.map (fun qi => yHatRow cfg M qi)
  let conf := q.map (fun qi => softmaxRow cfg.softmax_temperature (simsRow cfg M qi))
  let loss : Option ℝ :=
    if predictFlag then none
    else some (MemoryLoss
      ((q.zip y).map (fun p => posScoreRow cfg M p.1 p.2))
      ((q.zip y).map (fun p => negScoreRow cfg M p.1 p.2))
      cfg.margin)
  let yHatIdx := q.map (fun qi => top1Row cfg M qi)
  (yHat, conf, loss, updateMem noise q y yHat yHatIdx M)

/-- `Memory.predict`: normalize the batch, retrieve the top-1 values and the
softmax confidences; the method contains no assignment to the store, so the
state component is returned unchanged. -/
noncomputable def predictFn (cfg : Config) (x : List Vec) (M : Memory) :
    (List ℤ × List (List ℝ)) × Memory :=
  let q := x.map normalize
  ((q.map (fun qi =>
      M.values.getD ((topkIdx (M.keys.map (fun k => dot qi k)) cfg.top_k).getD 0 0) 0),
    q.map (fun qi =>
      softmaxRow cfg.softmax_temperature
        ((topkIdx (M.keys.map (fun k => dot qi k)) cfg.top_k).map
          (fun i => (M.keys.map (fun k => dot qi k)).getD i 0)))), M)

/-- The slots written by one `update` call: the blended top-1 slots of the
correct rows, plus, when any row was incorrect, the eviction targets. -/
noncomputable def writtenSlots (noise : List ℝ) (q : List Vec) (y yHat : List ℤ)
    (yHatIdx : List ℕ) (M : Memory) : List ℕ :=
  ((correctRows y yHat).map (fun i => yHatIdx.getD i 0)) ++
    (if incorrectRows y yHat = [] then []
     else evictTargets noise q.length (postCorrect q y yHat yHatIdx M))

/-- All stored keys are unit vectors (squared norm one). -/
def UnitKeys (M : Memory) : Prop := ∀ k ∈ M.keys, normSq k = 1

/-! ### List infrastructure lemmas -/

theorem getD_set_self {α : Type} {l : List α} {i : ℕ} (a d : α) (h : i < l.length) :
    (l.set i a).getD i d = a := by
  unfold List.getD
  rw [List.get?_eq_getElem?, List.getElem?_set_self (by simpa using h)]
  rfl

theorem getD_set_ne {α : Type} {l : List α} {i j : ℕ} (a d : α) (h : i ≠ j) :
    (l.set i a).getD j d = l.getD j d := by
  unfold List.getD
  rw [List.get?_eq_getElem?, List.get?_eq_getElem?, List.getElem?_set_ne h]

theorem getD_map {α β : Type} (f : α → β) (l : List α) (j : ℕ) (h : j < l.length)
    (d : β) (d' : α) : (l.map f).getD j d = f (l.getD j d') := by
  rw [List.getD_eq_getElem _ _ (by simpa using h), List.getD_eq_getElem _ _ h]
  simp

theorem getD_mem {α : Type} {l : List α} (d : α) (h : l ≠ []) : l.getD 0 d ∈ l := by
  cases l with
  | nil => exact absurd rfl h
  | cons x xs => simp [List.getD]

theorem getD_mem_of_lt {α : Type} {l : List α} {j : ℕ} (d : α) (h : j < l.length) :
    l.getD j d ∈ l := by
  rw [List.getD_eq_getElem _ _ h]
  exact List.getElem_mem h

@[simp] theorem writeList_nil {α : Type} (xs : List α) : writeList xs [] = xs := rfl

@[simp] theorem writeList_cons {α : Type} (xs : List α) (p : ℕ × α) (ps : List (ℕ × α)) :
    writeList xs (p :: ps) = writeList (xs.set p.1 p.2) ps := rfl

theorem writeList_append {α : Type} (xs : List α) (ps qs : List (ℕ × α)) :
    writeList xs (ps ++ qs) = writeList (writeList xs ps) qs := by
  simp [writeList, List.foldl_append]

theorem length_writeList {α : Type} (xs : List α) (ps : List (ℕ × α)) :
    (writeList xs ps).length = xs.length := by
  induction ps generalizing xs with
  | nil => rfl
  | cons p ps ih => simp [writeList_cons, ih]

theorem getD_writeList_not_mem {α : Type} {xs : List α} {ps : List (ℕ × α)} {j : ℕ}
    (d : α) (h : j ∉ ps.map Prod.fst) : (writeList xs ps).getD j d = xs.getD j d := by
  induction ps generalizing xs with
  | nil => rfl
  | cons p ps ih =>
    simp only [List.map_cons, List.mem_cons, not_or] at h
    rw [writeList_cons, ih h.2, getD_set_ne _ _ (fun hh => h.1 hh.symm)]

theorem getD_writeList_last {α : Type} {xs : List α} {ps qs : List (ℕ × α)} {j : ℕ}
    (v d : α) (hj : j < xs.length) (h : j ∉ qs.map Prod.fst) :
    (writeList xs (ps ++ (j, v) :: qs)).getD j d = v := by
  rw [writeList_append, writeList_cons, getD_writeList_not_mem d h, getD_set_self]
  rw [length_writeList]
  exact hj

theorem getD_writeList_mem_zero {xs : List ℝ} {ps : List (ℕ × ℝ)} {j : ℕ}
    (d : ℝ) (hz : ∀ p ∈ ps, p.2 = 0) (hm : j ∈ ps.map Prod.fst) (hj : j < xs.length) :
    (writeList xs ps).getD j d = 0 := by
  induction ps generalizing xs with
  | nil => simp at hm
  | cons p ps ih =>
    rw [writeList_cons]
    by_cases hmem : j ∈ ps.map Prod.fst
    · exact ih (fun q hq => hz q (List.mem_cons_of_mem p hq)) hmem (by simpa using hj)
    · have hfst : p.1 = j := by
        simp only [List.map_cons, List.mem_cons] at hm
        rcases hm with h | h
        · exact h.symm
        · exact absurd h hmem
      rw [getD_writeList_not_mem d hmem, hfst]
      rw [hz p (List.mem_cons_self p ps)]
      exact getD_set_self _ _ hj

theorem mem_writeList {α : Type} {xs : List α} {ps : List (ℕ × α)} {a : α}
    (h : a ∈ writeList xs ps) : a ∈ xs ∨ a ∈ ps.map Prod.snd := by
  induction ps generalizing xs with
  | nil => exact Or.inl h
  | cons p ps ih =>
    rw [writeList_cons] at h
    rcases ih h with h' | h'
    · rcases List.mem_or_eq_of_mem_set h' with h'' | h''
      · exact Or.inl h''
      · exact Or.inr (by simp [h''])
    · exact Or.inr (by simp [List.mem_cons_of_mem _ h'])

theorem length_scatter {α : Type} (xs : List α) (idx : List ℕ) (vals : List α) :
    (scatter xs idx vals).length = xs.length := length_writeList _ _

theorem getD_scatter_not_mem {α : Type} {xs : List α} {idx : List ℕ} {vals : List α}
    {j : ℕ} (d : α) (h : j ∉ idx) : (scatter xs idx vals).getD j d = xs.getD j d := by
  apply getD_writeList_not_mem
  intro hmem
  rcases List.mem_map.mp hmem with ⟨p, hp, hfst⟩
  exact h (hfst ▸ (List.of_mem_zip hp).1)

theorem mem_scatter {α : Type} {xs : List α} {idx : List ℕ} {vals : List α} {a : α}
    (h : a ∈ scatter xs idx vals) : a ∈ xs ∨ a ∈ vals := by
  rcases mem_writeList h with h' | h'
  · exact Or.inl h'
  · rcases List.mem_map.mp h' with ⟨p, hp, hsnd⟩
    exact Or.inr (hsnd ▸ (List.of_mem_zip hp).2)

theorem length_resetZeros (xs : List ℝ) (idx : List ℕ) :
    (resetZeros xs idx).length = xs.length := length_writeList _ _

theorem getD_resetZeros_mem {xs : List ℝ} {idx : List ℕ} {j : ℕ} (d : ℝ)
    (hm : j ∈ idx) (hj : j < xs.length) : (resetZeros xs idx).getD j d = 0 := by
  apply getD_writeList_mem_zero d _ _ hj
  · intro p hp
    rcases List.mem_map.mp hp with ⟨i, _, hip⟩
    rw [← hip]
  · rcases List.mem_map.mp (List.mem_map_of_mem (fun i => ((i : ℕ), (0 : ℝ))) hm) with _
    refine List.mem_map.mpr ?_
    exact ⟨(j, 0), List.mem_map_of_mem _ hm, rfl⟩

theorem getD_resetZeros_not_mem {xs : List ℝ} {idx : List ℕ} {j : ℕ} (d : ℝ)
    (h : j ∉ idx) : (resetZeros xs idx).getD j d = xs.getD j d := by
  apply getD_writeList_not_mem
  intro hmem
  rcases List.mem_map.mp hmem with ⟨p, hp, hfst⟩
  rcases List.mem_map.mp hp with ⟨i, hi, hip⟩
  apply h
  rw [← hfst, ← hip]
  exact hi

theorem zipWith_map_same {α β γ δ : Type} (f : β → γ → δ) (g : α → β) (h : α → γ)
    (l : List α) : List.zipWith f (l.map g) (l.map h) = l.map (fun a => f (g a) (h a)) := by
  induction l with
  | nil => rfl
  | cons x xs ih => simp [ih]

/-! ### Maximum of a list -/

theorem le_foldl_max (x : ℝ) (l : List ℝ) : x ≤ l.foldl max x := by
  induction l generalizing x with
  | nil => exact le_refl x
  | cons a as ih => exact le_trans (le_max_left x a) (ih (max x a))

theorem foldl_max_le {b : ℝ} (x : ℝ) (l : List ℝ) (hx : x ≤ b) (h : ∀ a ∈ l, a ≤ b) :
    l.foldl max x ≤ b := by
  induction l generalizing x with
  | nil => exact hx
  | cons a as ih =>
    exact ih (max x a) (max_le hx (h a (List.mem_cons_self a as)))
      (fun c hc => h c (List.mem_cons_of_mem a hc))

@[simp] theorem listMax_cons (x : ℝ) (xs : List ℝ) :
    listMax (x :: xs) = xs.foldl max x := rfl

theorem foldl_max_mem (x : ℝ) (l : List ℝ) : l.foldl max x = x ∨ l.foldl max x ∈ l := by
  induction l generalizing x with
  | nil => exact Or.inl rfl
  | cons a as ih =>
    rw [List.foldl_cons]
    rcases ih (max x a) with h | h
    · rcases max_choice x a with hm | hm
      · exact Or.inl (by rw [h, hm])
      · exact Or.inr (by rw [h, hm]; exact List.mem_cons_self a as)
    · exact Or.inr (List.mem_cons_of_mem a h)

theorem mem_le_foldl_max {a : ℝ} {l : List ℝ} (x : ℝ) (h : a ∈ l) :
    a ≤ l.foldl max x := by
  induction l generalizing x with
  | nil => simp at h
  | cons b bs ih =>
    rw [List.foldl_cons]
    rcases List.mem_cons.mp h with h' | h'
    · rw [h']
      exact le_trans (le_max_right x b) (le_foldl_max _ bs)
    · exact ih _ h'

theorem le_listMax {a : ℝ} {l : List ℝ} (h : a ∈ l) : a ≤ listMax l := by
  cases l with
  | nil => simp at h
  | cons x xs =>
    rw [listMax_cons]
    rcases List.mem_cons.mp h with h' | h'
    · rw [h']; exact le_foldl_max x xs
    · exact mem_le_foldl_max x h'

theorem listMax_mem {l : List ℝ} (h : l ≠ []) : listMax l ∈ l := by
  cases l with
  | nil => exact absurd rfl h
  | cons x xs =>
    rw [listMax_cons]
    rcases foldl_max_mem x xs with h' | h'
    · rw [h']; exact List.mem_cons_self x xs
    · exact List.mem_cons_of_mem x h'

theorem listMax_le {b : ℝ} {l : List ℝ} (hne : l ≠ []) (h : ∀ a ∈ l, a ≤ b) :
    listMax l ≤ b := by
  cases l with
  | nil => exact absurd rfl hne
  | cons x xs =>
    rw [listMax_cons]
    exact foldl_max_le x xs (h x (List.mem_cons_self x xs))
      (fun a ha => h a (List.mem_cons_of_mem x ha))

/-! ### The argsort and top-k index selection -/

theorem insertRank_perm {α : Type} [LinearOrder α] (s : ℕ → α) (i : ℕ) (l : List ℕ) :
    (insertRank s i l).Perm (i :: l) := by
  induction l with
  | nil => exact List.Perm.refl _
  | cons j rest ih =>
    unfold insertRank
    by_cases h : s i ≤ s j
    · rw [if_pos h]
      exact (ih.cons j).trans (List.Perm.swap i j rest)
    · rw [if_neg h]

theorem foldl_insertRank_perm {α : Type} [LinearOrder α] (s : ℕ → α) (l : List ℕ) :
    ∀ acc : List ℕ, (l.foldl (fun a i => insertRank s i a) acc).Perm (acc ++ l) := by
  induction l with
  | nil => intro acc; simp
  | cons i t ih =>
    intro acc
    have h1 := ih (insertRank s i acc)
    have h2 : (insertRank s i acc ++ t).Perm (acc ++ i :: t) := by
      refine ((insertRank_perm s i acc).append_right t).trans ?_
      exact List.perm_middle.symm
    rw [List.foldl_cons]
    exact h1.trans h2

theorem argsortDesc_perm {α : Type} [LinearOrder α] (s : ℕ → α) (n : ℕ) :
    (argsortDesc s n).Perm (List.range n) := by
  simpa using foldl_insertRank_perm s (List.range n) []

theorem length_argsortDesc {α : Type} [LinearOrder α] (s : ℕ → α) (n : ℕ) :
    (argsortDesc s n).length = n := by
  rw [(argsortDesc_perm s n).length_eq, List.length_range]

theorem mem_argsortDesc {α : Type} [LinearOrder α] {s : ℕ → α} {n j : ℕ}
    (h : j ∈ argsortDesc s n) : j < n := by
  have := (argsortDesc_perm s n).mem_iff.mp h
  simpa using this

theorem length_topkIdx (xs : List ℝ) (k : ℕ) :
    (topkIdx xs k).length = min k xs.length := by
  unfold topkIdx
  rw [List.length_take, length_argsortDesc]

theorem mem_topkIdx_lt {xs : List ℝ} {k j : ℕ} (h : j ∈ topkIdx xs k) :
    j < xs.length := mem_argsortDesc (List.mem_of_mem_take h)

theorem topkIdx_ne_nil {xs : List ℝ} {k : ℕ} (hk : 1 ≤ k) (hxs : xs ≠ []) :
    topkIdx xs k ≠ [] := by
  intro hcon
  have h := length_topkIdx xs k
  rw [hcon] at h
  simp only [List.length_nil] at h
  have h2 : 0 < xs.length := List.length_pos.mpr hxs
  omega

/-! ### Norms and normalization -/

theorem normSq_eq_sum (v : Vec) : normSq v = (v.map (fun a => a * a)).sum := by
  unfold normSq dot
  induction v with
  | nil => rfl
  | cons x xs ih => simp only [List.zipWith_cons_cons, List.map_cons, List.sum_cons, ih]

theorem normSq_nonneg (v : Vec) : 0 ≤ normSq v := by
  rw [normSq_eq_sum]
  apply List.sum_nonneg
  intro a ha
  rcases List.mem_map.mp ha with ⟨b, _, hb⟩
  rw [← hb]
  exact mul_self_nonneg b

theorem normSq_pos {v : Vec} (h : ¬ isZeroVec v) : 0 < normSq v := by
  unfold isZeroVec at h
  push_neg at h
  rcases h with ⟨a, ha, hne⟩
  rw [normSq_eq_sum]
  induction v with
  | nil => simp at ha
  | cons x xs ih =>
    rw [List.map_cons, List.sum_cons]
    rcases List.mem_cons.mp ha with h' | h'
    · have : 0 < x * x := by rw [← h']; exact mul_self_pos.mpr hne
      have hrest : 0 ≤ (xs.map (fun a => a * a)).sum := by
        apply List.sum_nonneg
        intro b hb
        rcases List.mem_map.mp hb with ⟨c, _, hc⟩
        rw [← hc]
        exact mul_self_nonneg c
      linarith
    · have := ih h'
      have hx : 0 ≤ x * x := mul_self_nonneg x
      linarith

theorem sum_map_div (l : List ℝ) (f : ℝ → ℝ) (c : ℝ) :
    (l.map (fun a => f a / c)).sum = (l.map f).sum / c := by
  induction l with
  | nil => simp
  | cons x xs ih => simp [ih, add_div]

theorem normSq_map_div (v : Vec) (c : ℝ) :
    normSq (v.map (fun a => a / c)) = normSq v / (c * c) := by
  rw [normSq_eq_sum, normSq_eq_sum, List.map_map]
  induction v with
  | nil => simp
  | cons x xs ih =>
    simp only [List.map_cons, List.sum_cons, Function.comp]
    rw [ih, add_div]
    congr 1
    rw [div_mul_div_comm]

theorem normSq_normalize {v : Vec} (h : normSq v ≠ 0) : normSq (normalize v) = 1 := by
  unfold normalize
  rw [normSq_map_div]
  unfold norm2
  rw [Real.mul_self_sqrt (normSq_nonneg v)]
  exact div_self h

theorem normSq_ne_zero_of_not_zeroVec {v : Vec} (h : ¬ isZeroVec v) : normSq v ≠ 0 :=
  ne_of_gt (normSq_pos h)

theorem normalize_of_normSq_one {v : Vec} (h : normSq v = 1) : normalize v = v := by
  unfold normalize norm2
  rw [h, Real.sqrt_one]
  simp

/-! ### The correct and incorrect row partitions -/

theorem mem_correctRows {y yHat : List ℤ} {i : ℕ} :
    i ∈ correctRows y yHat ↔ i < y.length ∧ yHat.getD i 0 = y.getD i 0 := by
  unfold correctRows
  rw [List.mem_filter, List.mem_range]
  simp

theorem mem_incorrectRows {y yHat : List ℤ} {i : ℕ} :
    i ∈ incorrectRows y yHat ↔ i < y.length ∧ yHat.getD i 0 ≠ y.getD i 0 := by
  unfold incorrectRows
  rw [List.mem_filter, List.mem_range]
  simp

theorem correctRows_pairwise (y yHat : List ℤ) :
    (correctRows y yHat).Pairwise (· < ·) :=
  (List.pairwise_lt_range y.length).sublist (List.filter_sublist _)

/-! ### Behavior of the update step -/

theorem values_postCorrect (q : List Vec) (y yHat : List ℤ) (yHatIdx : List ℕ)
    (M : Memory) : (postCorrect q y yHat yHatIdx M).values = M.values := by
  unfold postCorrect
  by_cases hcr : correctRows y yHat = [] <;> simp [hcr]

theorem age_length_postCorrect (q : List Vec) (y yHat : List ℤ) (yHatIdx : List ℕ)
    (M : Memory) : (postCorrect q y yHat yHatIdx M).age.length = M.age.length := by
  unfold postCorrect
  by_cases hcr : correctRows y yHat = [] <;> simp [hcr, length_resetZeros]

theorem keys_length_postCorrect (q : List Vec) (y yHat : List ℤ) (yHatIdx : List ℕ)
    (M : Memory) : (postCorrect q y yHat yHatIdx M).keys.length = M.keys.length := by
  unfold postCorrect
  by_cases hcr : correctRows y yHat = [] <;> simp [hcr, length_scatter]

theorem age_postCorrect (q : List Vec) (y yHat : List ℤ) (yHatIdx : List ℕ)
    (M : Memory) {j : ℕ} (hj : j < M.age.length) :
    (postCorrect q y yHat yHatIdx M).age.getD j 0 =
      if j ∈ (correctRows y yHat).map (fun i => yHatIdx.getD i 0) then 0
      else M.age.getD j 0 + 1 := by
  unfold postCorrect
  by_cases hcr : correctRows y yHat = []
  · rw [if_pos hcr]
    have hnm : j ∉ (correctRows y yHat).map (fun i => yHatIdx.getD i 0) := by
      rw [hcr]; simp
    rw [if_neg hnm]
    exact getD_map _ _ _ hj _ 0
  · rw [if_neg hcr]
    by_cases hm : j ∈ (correctRows y yHat).map (fun i => yHatIdx.getD i 0)
    · rw [if_pos hm]
      exact getD_resetZeros_mem _ hm (by simpa using hj)
    · rw [if_neg hm]
      rw [getD_resetZeros_not_mem _ hm]
      exact getD_map _ _ _ hj _ 0

theorem age_updateMem (noise : List ℝ) (q : List Vec) (y yHat : List ℤ)
    (yHatIdx : List ℕ) (M : Memory) {j : ℕ} (hj : j < M.age.length) :
    (updateMem noise q y yHat yHatIdx M).age.getD j 0 =
      if j ∈ writtenSlots noise q y yHat yHatIdx M then 0
      else M.age.getD j 0 + 1 := by
  unfold updateMem writtenSlots
  by_cases hir : incorrectRows y yHat = []
  · rw [if_pos hir, if_pos hir, List.append_nil]
    exact age_postCorrect q y yHat yHatIdx M hj
  · rw [if_neg hir, if_neg hir]
    set tgt := evictTargets noise q.length (postCorrect q y yHat yHatIdx M) with htgt
    by_cases hm : j ∈ tgt
    · have : j ∈ ((correctRows y yHat).map (fun i => yHatIdx.getD i 0)) ++ tgt :=
        List.mem_append_right _ hm
      rw [if_pos this]
      exact getD_resetZeros_mem _ hm (by rw [age_length_postCorrect]; exact hj)
    · rw [getD_resetZeros_not_mem _ hm]
      by_cases hcs : j ∈ (correctRows y yHat).map (fun i => yHatIdx.getD i 0)
      · rw [if_pos (List.mem_append_left _ hcs)]
        rw [age_postCorrect q y yHat yHatIdx M hj, if_pos hcs]
      · have : j ∉ ((correctRows y yHat).map (fun i => yHatIdx.getD i 0)) ++ tgt := by
          intro hcon
          rcases List.mem_append.mp hcon with h | h
          · exact hcs h
          · exact hm h
        rw [if_neg this]
        rw [age_postCorrect q y yHat yHatIdx M hj, if_neg hcs]

theorem keys_postCorrect_last (q : List Vec) (y yHat : List ℤ) (yHatIdx : List ℕ)
    (M : Memory) {i : ℕ} (hi : i ∈ correctRows y yHat)
    (hlast : ∀ j ∈ correctRows y yHat, yHatIdx.getD j 0 = yHatIdx.getD i 0 → j ≤ i)
    (hslot : yHatIdx.getD i 0 < M.keys.length) :
    (postCorrect q y yHat yHatIdx M).keys.getD (yHatIdx.getD i 0) [] =
      normalize (vadd (M.keys.getD (yHatIdx.getD i 0) []) (q.getD i [])) := by
  have hcr : correctRows y yHat ≠ [] := List.ne_nil_of_mem hi
  unfold postCorrect
  rw [if_neg hcr]
  simp only [scatter]
  rw [show ((correctRows y yHat).map (fun i => yHatIdx.getD i 0)).zip
        ((correctRows y yHat).map (fun i =>
          normalize (vadd (M.keys.getD (yHatIdx.getD i 0) []) (q.getD i [])))) =
      (correctRows y yHat).map (fun r => (yHatIdx.getD r 0,
        normalize (vadd (M.keys.getD (yHatIdx.getD r 0) []) (q.getD r [])))) from
    List.zip_map' _ _ _]
  obtain ⟨l₁, l₂, hsplit⟩ := List.append_of_mem hi
  rw [hsplit, List.map_append, List.map_cons]
  apply getD_writeList_last _ _ hslot
  intro hcon
  rcases List.mem_map.mp hcon with ⟨p, hp, hfst⟩
  rcases List.mem_map.mp hp with ⟨r, hr, hrp⟩
  have hri : yHatIdx.getD r 0 = yHatIdx.getD i 0 := by
    rw [← hfst, ← hrp]
  have hrcr : r ∈ correctRows y yHat := by
    rw [hsplit]
    exact List.mem_append_right _ (List.mem_cons_of_mem _ hr)
  have hle : r ≤ i := hlast r hrcr hri
  have hgt : i < r := by
    have hpw := correctRows_pairwise y yHat
    rw [hsplit] at hpw
    exact (List.pairwise_cons.mp (List.pairwise_append.mp hpw).2.1).1 r hr
  omega

theorem unitKeys_postCorrect (q : List Vec) (y yHat : List ℤ) (yHatIdx : List ℕ)
    (M : Memory) (hM : UnitKeys M)
    (hblend : ∀ i ∈ correctRows y yHat,
      normSq (vadd (M.keys.getD (yHatIdx.getD i 0) []) (q.getD i [])) ≠ 0) :
    UnitKeys (postCorrect q y yHat yHatIdx M) := by
  unfold postCorrect
  by_cases hcr : correctRows y yHat = []
  · rw [if_pos hcr]
    exact hM
  · rw [if_neg hcr]
    intro k hk
    rcases mem_scatter hk with h | h
    · exact hM k h
    · rcases List.mem_map.mp h with ⟨i, hicr, hik⟩
      rw [← hik]
      exact normSq_normalize (hblend i hicr)

theorem unitKeys_updateMem (noise : List ℝ) (q : List Vec) (y yHat : List ℤ)
    (yHatIdx : List ℕ) (M : Memory) (hq : ∀ v ∈ q, normSq v = 1) (hM : UnitKeys M)
    (hblend : ∀ i ∈ correctRows y yHat,
      normSq (vadd (M.keys.getD (yHatIdx.getD i 0) []) (q.getD i [])) ≠ 0) :
    UnitKeys (updateMem noise q y yHat yHatIdx M) := by
  unfold updateMem
  by_cases hir : incorrectRows y yHat = []
  · rw [if_pos hir]
    exact unitKeys_postCorrect q y yHat yHatIdx M hM hblend
  · rw [if_neg hir]
    intro k hk
    rcases mem_scatter hk with h | h
    · exact unitKeys_postCorrect q y yHat yHatIdx M hM hblend k h
    · exact hq k h

theorem listMax_masked (tk : List ℕ) (s : ℕ → ℝ) (p : ℕ → Bool)
    (h1 : ∃ i ∈ tk, p i = true) (h2 : ∃ i ∈ tk, p i = false) :
    listMax (tk.map (fun i => if p i then s i else 0)) =
      max (listMax ((tk.filter p).map s)) 0 := by
  obtain ⟨i1, hi1, hp1⟩ := h1
  obtain ⟨i2, hi2, hp2⟩ := h2
  have hP : tk.map (fun i => if p i then s i else 0) ≠ [] := by
    simpa using List.ne_nil_of_mem hi1
  have hMs : (tk.filter p).map s ≠ [] := by
    have : i1 ∈ tk.filter p := List.mem_filter.mpr ⟨hi1, hp1⟩
    simpa using List.ne_nil_of_mem this
  apply le_antisymm
  · rcases List.mem_map.mp (listMax_mem hP) with ⟨i, hitk, hval⟩
    by_cases hpi : p i
    · rw [← hval, if_pos hpi]
      refine le_trans (le_listMax ?_) (le_max_left _ _)
      exact List.mem_map.mpr ⟨i, List.mem_filter.mpr ⟨hitk, hpi⟩, rfl⟩
    · rw [← hval, if_neg hpi]
      exact le_max_right _ _
  · apply max_le
    · rcases List.mem_map.mp (listMax_mem hMs) with ⟨i, hif, hval⟩
      have hitk : i ∈ tk := (List.mem_filter.mp hif).1
      have hpi : p i = true := (List.mem_filter.mp hif).2
      rw [← hval]
      refine le_listMax (List.mem_map.mpr ⟨i, hitk, ?_⟩)
      rw [if_pos hpi]
    · refine le_listMax (List.mem_map.mpr ⟨i2, hi2, ?_⟩)
      rw [if_neg (by simp [hp2])]

theorem MemoryLoss_nonneg (pos neg : List ℝ) (margin : ℝ) :
    0 ≤ MemoryLoss pos neg margin := by
  unfold MemoryLoss
  apply div_nonneg _ (Nat.cast_nonneg _)
  apply List.sum_nonneg
  intro a ha
  induction pos generalizing neg with
  | nil => simp at ha
  | cons p ps ih =>
    cases neg with
    | nil => simp at ha
    | cons n ns =>
      rw [List.zipWith_cons_cons] at ha
      rcases List.mem_cons.mp ha with h | h
      · rw [h]; exact le_max_right _ _
      · exact ih ns h

theorem queryFn_state (cfg : Config) (noise : List ℝ) (x : List Vec) (y : List ℤ)
    (p : Bool) (M : Memory) :
    (queryFn cfg noise x y p M).2.2.2 =
      updateMem noise (x.map normalize) y
        ((x.map normalize).map (fun q => yHatRow cfg M q))
        ((x.map normalize).map (fun q => top1Row cfg M q)) M := rfl

/-! ### Concrete instances used for witnesses and counterexamples -/

/-- A one-slot configuration: capacity 1, key dimension 2, top_k 1. -/
noncomputable def cfgA : Config :=
  { memory_size := 1, key_dim := 2, top_k := 1, softmax_temperature := 1
    age_noise := 8, margin := 1/10 }

/-- A one-slot memory: key `(1,0)`, value `0`, age `0`. -/
noncomputable def memA : Memory := { keys := [[1, 0]], values := [0], age := [0] }

/-- A three-slot configuration: capacity 3, key dimension 2, top_k 2. -/
noncomputable def cfgB : Config :=
  { memory_size := 3, key_dim := 2, top_k := 2, softmax_temperature := 1
    age_noise := 8, margin := 1/10 }

/-- A three-slot memory with keys `(1,0)`, `(0,1)`, `(0,-1)`, values `5,7,7`. -/
noncomputable def memB : Memory :=
  { keys := [[1, 0], [0, 1], [0, -1]], values := [5, 7, 7], age := [0, 0, 0] }

theorem sqrt_four : Real.sqrt 4 = 2 := by
  rw [show (4 : ℝ) = 2 ^ 2 by norm_num, Real.sqrt_sq (by norm_num)]

theorem normalize_e1 : normalize [(1 : ℝ), 0] = [1, 0] := by
  norm_num [normalize, norm2, normSq, dot, Real.sqrt_one]

theorem normalize_e2 : normalize [(0 : ℝ), 1] = [0, 1] := by
  norm_num [normalize, norm2, normSq, dot, Real.sqrt_one]

/-! ### Claim theorems -/

/-- C8: `predict` leaves the memory state entirely unchanged — keys, values and
ages are those of the input state — and returns exactly the top-1 stored value
of each normalized query row as the prediction together with the
temperature-scaled softmax of the top-k similarities as the confidence. -/
theorem C8_predict_pure (cfg : Config) (x : List Vec) (M : Memory) :
    (predictFn cfg x M).2 = M ∧
    (predictFn cfg x M).1.1 = (x.map normalize).map (fun q => yHatRow cfg M q) ∧
    (predictFn cfg x M).1.2 = (x.map normalize).map
      (fun q => softmaxRow cfg.softmax_temperature (simsRow cfg M q)) :=
  ⟨rfl, rfl, rfl⟩

/-- C5: with `compute_loss` requested and a nonnegative margin, the returned
loss is exactly the batch mean of `clamp(negative - positive + margin, 0)`,
and any returned loss value is nonnegative. -/
theorem C5_loss_mean_nonneg (cfg : Config) (noise : List ℝ) (x : List Vec)
    (y : List ℤ) (M : Memory) (_hm : 0 ≤ cfg.margin) (hy : y.length = x.length) :
    (queryFn cfg noise x y false M).2.2.1 =
      some ((List.zipWith (fun p n => max (n - p + cfg.margin) 0)
        (((x.map normalize).zip y).map (fun p => posScoreRow cfg M p.1 p.2))
        (((x.map normalize).zip y).map (fun p => negScoreRow cfg M p.1 p.2))).sum /
        (x.length : ℝ)) ∧
    (∀ l, (queryFn cfg noise x y false M).2.2.1 = some l → 0 ≤ l) := by
  have hR : (queryFn cfg noise x y false M).2.2.1 =
      some (MemoryLoss
        (((x.map normalize).zip y).map (fun p => posScoreRow cfg M p.1 p.2))
        (((x.map normalize).zip y).map (fun p => negScoreRow cfg M p.1 p.2))
        cfg.margin) := rfl
  constructor
  · rw [hR]
    unfold MemoryLoss
    have hlen : (((x.map normalize).zip y).map
        (fun p => posScoreRow cfg M p.1 p.2)).length = x.length := by
      rw [List.length_map, List.length_zip, List.length_map, hy, min_self]
    rw [hlen]
  · intro l hl
    rw [hR] at hl
    have := Option.some.inj hl
    rw [← this]
    exact MemoryLoss_nonneg _ _ _

/-- C5 witness: a concrete single-row query on the one-slot memory, margin
one tenth, satisfying both hypotheses. -/
theorem C5_witness :
    (0 ≤ cfgA.margin ∧ ([5] : List ℤ).length = ([[1, 0]] : List Vec).length) ∧
    ((queryFn cfgA [0] [[1, 0]] [5] false memA).2.2.1 =
      some ((List.zipWith (fun p n => max (n - p + cfgA.margin) 0)
        (((([[1, 0]] : List Vec).map normalize).zip ([5] : List ℤ)).map
          (fun p => posScoreRow cfgA memA p.1 p.2))
        (((([[1, 0]] : List Vec).map normalize).zip ([5] : List ℤ)).map
          (fun p => negScoreRow cfgA memA p.1 p.2))).sum /
        (([[1, 0]] : List Vec).length : ℝ)) ∧
    (∀ l, (queryFn cfgA [0] [[1, 0]] [5] false memA).2.2.1 = some l → 0 ≤ l)) :=
  ⟨⟨by norm_num [cfgA], rfl⟩,
   C5_loss_mean_nonneg cfgA [0] [[1, 0]] [5] memA (by norm_num [cfgA]) rfl⟩

/-- C7: a `query` call ages every slot by one and then zeroes exactly the ages
of the slots it writes (correct-match reinforcement slots or eviction
targets); every other slot's age afterwards is its old age plus one. -/
theorem C7_age_tick (cfg : Config) (noise : List ℝ) (x : List Vec) (y : List ℤ)
    (p : Bool) (M : Memory) (j : ℕ) (hj : j < M.age.length) :
    (queryFn cfg noise x y p M).2.2.2.age.getD j 0 =
      if j ∈ writtenSlots noise (x.map normalize) y
          ((x.map normalize).map (fun q => yHatRow cfg M q))
          ((x.map normalize).map (fun q => top1Row cfg M q)) M
      then 0 else M.age.getD j 0 + 1 := by
  rw [queryFn_state]
  exact age_updateMem _ _ _ _ _ _ hj

/-- C7 witness: slot 0 of the one-slot memory after a concrete query call. -/
theorem C7_witness :
    0 < memA.age.length ∧
    ((queryFn cfgA [0] [[1, 0]] [5] true memA).2.2.2.age.getD 0 0 =
      if 0 ∈ writtenSlots [0] (([[1, 0]] : List Vec).map normalize) [5]
          ((([[1, 0]] : List Vec).map normalize).map (fun q => yHatRow cfgA memA q))
          ((([[1, 0]] : List Vec).map normalize).map (fun q => top1Row cfgA memA q)) memA
      then 0 else memA.age.getD 0 0 + 1) :=
  ⟨by norm_num [memA],
   C7_age_tick cfgA [0] [[1, 0]] [5] true memA 0 (by norm_num [memA])⟩

/-- C9 counterexample: constructing with capacity 4, requested top_k 256 and
inverse_temp 1 stores the temperature computed from the raw argument
(log 51.2), not from the clamped top_k as the claim states (which would
give 1). -/
theorem C9_counterexample :
    (mkConfig 4 2 256 1 8 (1/10)).softmax_temperature ≠
      max 1 (Real.log (0.2 * ((min 256 4 : ℕ) : ℝ)) / 1) := by
  have hL : (mkConfig 4 2 256 1 8 (1/10)).softmax_temperature =
      max 1 (Real.log (0.2 * (256 : ℝ)) / 1) := rfl
  have hgt : 1 < Real.log (0.2 * (256 : ℝ)) := by
    rw [show (0.2 * 256 : ℝ) = 51.2 by norm_num]
    have he : Real.exp 1 < 51.2 := lt_trans Real.exp_one_lt_d9 (by norm_num)
    calc (1 : ℝ) = Real.log (Real.exp 1) := (Real.log_exp 1).symm
    _ < Real.log 51.2 := Real.log_lt_log (Real.exp_pos 1) he
  have hR : max 1 (Real.log (0.2 * ((min 256 4 : ℕ) : ℝ)) / 1) = 1 := by
    rw [show ((min 256 4 : ℕ) : ℝ) = 4 by norm_num]
    apply max_eq_left
    rw [div_one]
    have : Real.log (0.2 * 4) < 0 := by
      apply Real.log_neg <;> norm_num
    linarith
  rw [hL, hR, div_one, max_eq_right (le_of_lt hgt)]
  exact ne_of_gt hgt

/-- C9 amended: the stored top_k is `min(requested, capacity)`, while the
softmax temperature is computed from the raw requested top_k; the two
readings agree whenever the request does not exceed the capacity. -/
theorem C9_amended (ms kd tk : ℕ) (it an mg : ℝ) :
    (mkConfig ms kd tk it an mg).top_k = min tk ms ∧
    (mkConfig ms kd tk it an mg).softmax_temperature =
      max 1 (Real.log (0.2 * (tk : ℝ)) / it) ∧
    (tk ≤ ms → (mkConfig ms kd tk it an mg).softmax_temperature =
      max 1 (Real.log (0.2 * ((min tk ms : ℕ) : ℝ)) / it)) := by
  refine ⟨rfl, rfl, fun h => ?_⟩
  rw [min_eq_left h]
  rfl

/-- C9 witness: a request of 2 on capacity 4 is not clamped and the claimed
formula holds there. -/
theorem C9_witness :
    2 ≤ 4 ∧ ((mkConfig 4 3 2 1 8 1).top_k = min 2 4 ∧
      (mkConfig 4 3 2 1 8 1).softmax_temperature =
        max 1 (Real.log (0.2 * (2 : ℕ)) / 1) ∧
      (2 ≤ 4 → (mkConfig 4 3 2 1 8 1).softmax_temperature =
        max 1 (Real.log (0.2 * ((min 2 4 : ℕ) : ℝ)) / 1))) :=
  ⟨by norm_num, C9_amended 4 3 2 1 8 1⟩

/-- C2: a single-row training query whose true label is stored in no slot of
the memory returns a present, nonnegative loss, and after the call some slot
holds that label with age exactly zero. -/
theorem C2_unseen_label (cfg : Config) (noise : List ℝ) (x0 : Vec) (y0 : ℤ)
    (M : Memory)
    (hk : M.keys.length = cfg.memory_size)
    (hv : M.values.length = cfg.memory_size)
    (ha : M.age.length = cfg.memory_size)
    (hn : noise.length = cfg.memory_size)
    (hms : 1 ≤ cfg.memory_size)
    (htk : 1 ≤ cfg.top_k)
    (hy0 : ∀ v ∈ M.values, v ≠ y0) :
    (∃ l, (queryFn cfg noise [x0] [y0] false M).2.2.1 = some l ∧ 0 ≤ l) ∧
    (∃ s, s < (queryFn cfg noise [x0] [y0] false M).2.2.2.values.length ∧
      (queryFn cfg noise [x0] [y0] false M).2.2.2.values.getD s 0 = y0 ∧
      (queryFn cfg noise [x0] [y0] false M).2.2.2.age.getD s 0 = 0) := by
  constructor
  · exact ⟨_, rfl, MemoryLoss_nonneg _ _ _⟩
  · set q0 := normalize x0 with hq0
    have hscores_len : (scoresRow M q0).length = cfg.memory_size := by
      rw [scoresRow, List.length_map, hk]
    have hscores_ne : scoresRow M q0 ≠ [] := by
      intro hcon
      rw [hcon] at hscores_len
      simp only [List.length_nil] at hscores_len
      omega
    have htk_ne : topkRow cfg M q0 ≠ [] := topkIdx_ne_nil htk hscores_ne
    have ht_lt : top1Row cfg M q0 < cfg.memory_size := by
      have h1 : top1Row cfg M q0 ∈ topkRow cfg M q0 := getD_mem _ htk_ne
      have h2 := mem_topkIdx_lt h1
      rwa [hscores_len] at h2
    have hyh_mem : yHatRow cfg M q0 ∈ M.values := by
      unfold yHatRow
      exact getD_mem_of_lt _ (by rw [hv]; exact ht_lt)
    have hne : yHatRow cfg M q0 ≠ y0 := hy0 _ hyh_mem
    have hcr : correctRows [y0] [yHatRow cfg M q0] = [] := by
      unfold correctRows
      simp [hne]
    have hir : incorrectRows [y0] [yHatRow cfg M q0] = [0] := by
      unfold incorrectRows
      rw [show List.range ([y0] : List ℤ).length = [0] from rfl]
      simp [hne]
    have hstate : (queryFn cfg noise [x0] [y0] false M).2.2.2 =
        updateMem noise [q0] [y0] [yHatRow cfg M q0] [top1Row cfg M q0] M := by
      rw [queryFn_state]
      simp
    have hpc : postCorrect [q0] [y0] [yHatRow cfg M q0] [top1Row cfg M q0] M =
        { keys := M.keys, values := M.values, age := M.age.map (· + 1) } := by
      unfold postCorrect
      rw [if_pos hcr]
    set noisy := List.zipWith (· + ·) (M.age.map (· + 1)) noise with hnoisy
    have hnoisy_len : noisy.length = cfg.memory_size := by
      rw [hnoisy, List.length_zipWith, List.length_map, ha, hn, min_self]
    have hev : evictTargets noise ([q0] : List Vec).length
        (postCorrect [q0] [y0] [yHatRow cfg M q0] [top1Row cfg M q0] M) =
        topkIdx noisy 1 := by
      rw [hpc]
      rfl
    have hupd : updateMem noise [q0] [y0] [yHatRow cfg M q0] [top1Row cfg M q0] M =
        { keys := scatter M.keys (topkIdx noisy 1) [q0]
          values := scatter M.values (topkIdx noisy 1) [y0]
          age := resetZeros (M.age.map (· + 1)) (topkIdx noisy 1) } := by
      unfold updateMem
      rw [hir]
      rw [if_neg (by simp : ¬([0] : List ℕ) = [])]
      rw [hev, hpc]
    have htgt_len : (topkIdx noisy 1).length = 1 := by
      rw [length_topkIdx, hnoisy_len]
      omega
    obtain ⟨s, hs⟩ := List.length_eq_one.mp htgt_len
    have hs_mem : s ∈ topkIdx noisy 1 := by
      rw [hs]
      exact List.mem_singleton_self s
    have hs_lt : s < cfg.memory_size := by
      have := mem_topkIdx_lt hs_mem
      rwa [hnoisy_len] at this
    refine ⟨s, ?_, ?_, ?_⟩
    · rw [hstate, hupd]
      show s < (scatter M.values (topkIdx noisy 1) [y0]).length
      rw [length_scatter, hv]
      exact hs_lt
    · rw [hstate, hupd]
      show (scatter M.values (topkIdx noisy 1) [y0]).getD s 0 = y0
      rw [hs]
      show (writeList M.values [(s, y0)]).getD s 0 = y0
      rw [writeList_cons, writeList_nil]
      exact getD_set_self _ _ (by rw [hv]; exact hs_lt)
    · rw [hstate, hupd]
      show (resetZeros (M.age.map (· + 1)) (topkIdx noisy 1)).getD s 0 = 0
      exact getD_resetZeros_mem _ hs_mem (by rw [List.length_map, ha]; exact hs_lt)

/-- C2 witness: the one-slot memory stores only label 0, and the query carries
label 5. -/
theorem C2_witness :
    (∀ v ∈ memA.values, v ≠ (5 : ℤ)) ∧
    ((∃ l, (queryFn cfgA [0] [[1, 0]] [5] false memA).2.2.1 = some l ∧ 0 ≤ l) ∧
     (∃ s, s < (queryFn cfgA [0] [[1, 0]] [5] false memA).2.2.2.values.length ∧
       (queryFn cfgA [0] [[1, 0]] [5] false memA).2.2.2.values.getD s 0 = 5 ∧
       (queryFn cfgA [0] [[1, 0]] [5] false memA).2.2.2.age.getD s 0 = 0)) :=
  ⟨by simp [memA], C2_unseen_label cfgA [0] [1, 0] 5 memA rfl rfl rfl rfl
    (le_refl 1) (le_refl 1) (by simp [memA])⟩

/-- A one-slot memory storing label 5 under key `(1,0)`. -/
noncomputable def memC : Memory := { keys := [[1, 0]], values := [5], age := [0] }

/-- C4 amended: a correct row's top-1 slot ends the call with age exactly
zero, unconditionally (both the correct-branch reset and any later eviction
reset write zero); its key ends the call holding the blend
`normalize(stored_key + query)` provided additionally no other correct row
shares that slot and the slot is not also selected by the incorrect-match
replacement. -/
theorem C4_amended (noise : List ℝ) (q : List Vec) (y yHat : List ℤ)
    (yHatIdx : List ℕ) (M : Memory) {i : ℕ}
    (hi : i ∈ correctRows y yHat)
    (hage : yHatIdx.getD i 0 < M.age.length) :
    (updateMem noise q y yHat yHatIdx M).age.getD (yHatIdx.getD i 0) 0 = 0 ∧
    ((∀ j ∈ correctRows y yHat, yHatIdx.getD j 0 = yHatIdx.getD i 0 → j = i) →
      (incorrectRows y yHat = [] ∨
        yHatIdx.getD i 0 ∉ evictTargets noise q.length (postCorrect q y yHat yHatIdx M)) →
      yHatIdx.getD i 0 < M.keys.length →
      (updateMem noise q y yHat yHatIdx M).keys.getD (yHatIdx.getD i 0) [] =
        normalize (vadd (M.keys.getD (yHatIdx.getD i 0) []) (q.getD i []))) := by
  have hpcage : (postCorrect q y yHat yHatIdx M).age.getD (yHatIdx.getD i 0) 0 = 0 := by
    rw [age_postCorrect q y yHat yHatIdx M hage]
    rw [if_pos (List.mem_map.mpr ⟨i, hi, rfl⟩)]
  constructor
  · unfold updateMem
    by_cases hir : incorrectRows y yHat = []
    · rw [if_pos hir]
      exact hpcage
    · rw [if_neg hir]
      show (resetZeros (postCorrect q y yHat yHatIdx M).age
          (evictTargets noise q.length (postCorrect q y yHat yHatIdx M))).getD
          (yHatIdx.getD i 0) 0 = 0
      by_cases hm : yHatIdx.getD i 0 ∈
          evictTargets noise q.length (postCorrect q y yHat yHatIdx M)
      · exact getD_resetZeros_mem _ hm
          (by rw [age_length_postCorrect]; exact hage)
      · rw [getD_resetZeros_not_mem _ hm]
        exact hpcage
  · intro huniq hnoev hslot
    have hpckeys := keys_postCorrect_last q y yHat yHatIdx M hi
      (fun j hj heq => Nat.le_of_eq (huniq j hj heq)) hslot
    unfold updateMem
    by_cases hir : incorrectRows y yHat = []
    · rw [if_pos hir]
      exact hpckeys
    · rw [if_neg hir]
      rcases hnoev with h | h
      · exact absurd h hir
      · show (scatter (postCorrect q y yHat yHatIdx M).keys
            (evictTargets noise q.length (postCorrect q y yHat yHatIdx M)) q).getD
            (yHatIdx.getD i 0) [] = _
        rw [getD_scatter_not_mem _ h]
        exact hpckeys

/-- C4 witness: a single correct row on the one-slot memory holding label 5,
with both the unconditional age conclusion and the key conclusion under the
discharged provisos. -/
theorem C4_witness :
    (0 ∈ correctRows [5] [5] ∧ incorrectRows [5] [5] = []) ∧
    ((updateMem [0] [[1, 0]] [5] [5] [0] memC).age.getD (([0] : List ℕ).getD 0 0) 0 = 0 ∧
     (updateMem [0] [[1, 0]] [5] [5] [0] memC).keys.getD (([0] : List ℕ).getD 0 0) [] =
       normalize (vadd (memC.keys.getD (([0] : List ℕ).getD 0 0) [])
         (([[1, 0]] : List Vec).getD 0 []))) :=
  ⟨⟨by decide, by decide⟩,
   ⟨(C4_amended [0] [[1, 0]] [5] [5] [0] memC
       (show (0 : ℕ) ∈ correctRows [5] [5] by decide) (by simp [memC])).1,
    (C4_amended [0] [[1, 0]] [5] [5] [0] memC
       (show (0 : ℕ) ∈ correctRows [5] [5] by decide) (by simp [memC])).2
      (by decide) (Or.inl (by decide)) (by simp [memC])⟩⟩

/-- C10 amended: when several correct rows share the same top-1 slot and no row
was predicted incorrectly, the slot's final key is the blend of the **last**
such row, computed from the pre-update stored key; the earlier rows' blends
are discarded by the indexed assignment, not accumulated. -/
theorem C10_amended (noise : List ℝ) (q : List Vec) (y yHat : List ℤ)
    (yHatIdx : List ℕ) (M : Memory) {i : ℕ}
    (hi : i ∈ correctRows y yHat)
    (hlast : ∀ j ∈ correctRows y yHat, yHatIdx.getD j 0 = yHatIdx.getD i 0 → j ≤ i)
    (hir : incorrectRows y yHat = [])
    (hslot : yHatIdx.getD i 0 < M.keys.length) :
    (updateMem noise q y yHat yHatIdx M).keys.getD (yHatIdx.getD i 0) [] =
      normalize (vadd (M.keys.getD (yHatIdx.getD i 0) []) (q.getD i [])) := by
  unfold updateMem
  rw [if_pos hir]
  exact keys_postCorrect_last q y yHat yHatIdx M hi hlast hslot

/-- C10 witness: two correct rows sharing slot 0; the theorem applies to the
later row (index 1). -/
theorem C10_witness :
    (1 ∈ correctRows [5, 5] [5, 5] ∧ incorrectRows [5, 5] [5, 5] = []) ∧
    (updateMem [0] [[1, 0], [1, 0]] [5, 5] [5, 5] [0, 0] memC).keys.getD
        (([0, 0] : List ℕ).getD 1 0) [] =
      normalize (vadd (memC.keys.getD (([0, 0] : List ℕ).getD 1 0) [])
        (([[1, 0], [1, 0]] : List Vec).getD 1 [])) :=
  ⟨⟨by decide, by decide⟩,
   C10_amended [0] [[1, 0], [1, 0]] [5, 5] [5, 5] [0, 0] memC (by decide)
     (by decide) (by decide) (by simp [memC])⟩

/-- C6 amended: every stored key is a unit vector after construction from
nonzero random rows, after any `predict` call, and after any `query` call
whose query rows are nonzero and whose correct-row blends
`stored_key + query` are nonzero (a blend is zero exactly when the
normalized query is the exact negation of its top-1 key). -/
theorem C6_amended (cfg : Config) (noise : List ℝ) (x : List Vec) (y : List ℤ)
    (p : Bool) (M : Memory) (ms : ℕ) (raw : List Vec)
    (hraw : ∀ v ∈ raw, ¬ isZeroVec v)
    (hM : UnitKeys M)
    (hx : ∀ v ∈ x, ¬ isZeroVec v)
    (hblend : ∀ i ∈ correctRows y ((x.map normalize).map (fun q => yHatRow cfg M q)),
      normSq (vadd
        (M.keys.getD (((x.map normalize).map (fun q => top1Row cfg M q)).getD i 0) [])
        ((x.map normalize).getD i [])) ≠ 0) :
    UnitKeys (initMemory ms raw) ∧
    UnitKeys (predictFn cfg x M).2 ∧
    UnitKeys (queryFn cfg noise x y p M).2.2.2 := by
  refine ⟨?_, hM, ?_⟩
  · intro k hk
    have hk' : k ∈ raw.map normalize := hk
    rcases List.mem_map.mp hk' with ⟨v, hv, hkv⟩
    rw [← hkv]
    exact normSq_normalize (normSq_ne_zero_of_not_zeroVec (hraw v hv))
  · rw [queryFn_state]
    apply unitKeys_updateMem
    · intro v hv
      rcases List.mem_map.mp hv with ⟨w, hw, hwv⟩
      rw [← hwv]
      exact normSq_normalize (normSq_ne_zero_of_not_zeroVec (hx w hw))
    · exact hM
    · exact hblend

theorem topkRow_memA : topkRow cfgA memA [(1 : ℝ), 0] = [0] := by
  norm_num [topkRow, scoresRow, memA, cfgA, dot, topkIdx, argsortDesc, insertRank,
    List.range_succ, List.range_zero]

theorem yHatRow_memA : yHatRow cfgA memA [(1 : ℝ), 0] = 0 := by
  rw [yHatRow, top1Row, topkRow_memA]
  rfl

theorem map_normalize_e1 : ([[1, 0]] : List Vec).map normalize = [[1, 0]] := by
  rw [List.map_cons, List.map_nil, normalize_e1]

/-- C6 witness: a query with label 5 on the one-slot memory storing label 0:
no correct rows, so the blend proviso is vacuous. -/
theorem C6_witness :
    ((∀ v ∈ ([[2, 0]] : List Vec), ¬ isZeroVec v) ∧ UnitKeys memA ∧
     (∀ v ∈ ([[1, 0]] : List Vec), ¬ isZeroVec v)) ∧
    (UnitKeys (initMemory 1 [[2, 0]]) ∧
     UnitKeys (predictFn cfgA [[1, 0]] memA).2 ∧
     UnitKeys (queryFn cfgA [0] [[1, 0]] [5] true memA).2.2.2) := by
  have h1 : ∀ v ∈ ([[2, 0]] : List Vec), ¬ isZeroVec v := by
    intro v hv
    rw [List.mem_singleton] at hv
    rw [hv]
    intro hz
    have := hz 2 (by simp)
    norm_num at this
  have h2 : UnitKeys memA := by
    intro k hk
    have hk' : k ∈ [([1, 0] : Vec)] := hk
    rw [List.mem_singleton] at hk'
    rw [hk']
    norm_num [normSq, dot]
  have h3 : ∀ v ∈ ([[1, 0]] : List Vec), ¬ isZeroVec v := by
    intro v hv
    rw [List.mem_singleton] at hv
    rw [hv]
    intro hz
    have := hz 1 (by simp)
    norm_num at this
  have h4 : ∀ i ∈ correctRows [5]
      ((([[1, 0]] : List Vec).map normalize).map (fun q => yHatRow cfgA memA q)),
      normSq (vadd
        (memA.keys.getD
          (((([[1, 0]] : List Vec).map normalize).map
            (fun q => top1Row cfgA memA q)).getD i 0) [])
        ((([[1, 0]] : List Vec).map normalize).getD i [])) ≠ 0 := by
    intro i hi
    rw [map_normalize_e1, List.map_cons, List.map_nil, yHatRow_memA] at hi
    rw [show correctRows [5] [0] = [] by decide] at hi
    simp at hi
  exact ⟨⟨h1, h2, h3⟩, C6_amended cfgA [0] [[1, 0]] [5] true memA 1 [[2, 0]] h1 h2 h3 h4⟩

theorem normalize_neg_e1 : normalize [(-1 : ℝ), 0] = [-1, 0] := by
  norm_num [normalize, norm2, normSq, dot, Real.sqrt_one]

/-- C6 counterexample: the query `(-1,0)` is nonzero and all stored keys are
unit, yet after the call the matched slot's key is the zero vector: the
correct-match blend `normalize((1,0) + (-1,0))` is the zero vector. -/
theorem C6_counterexample :
    (∀ v ∈ ([[-1, 0]] : List Vec), ¬ isZeroVec v) ∧
    UnitKeys memC ∧
    ¬ UnitKeys (queryFn cfgA [0] [[-1, 0]] [5] true memC).2.2.2 := by
  have hq : ([[-1, 0]] : List Vec).map normalize = [[-1, 0]] := by
    rw [List.map_cons, List.map_nil, normalize_neg_e1]
  have htk : topkRow cfgA memC [(-1 : ℝ), 0] = [0] := by
    norm_num [topkRow, scoresRow, memC, cfgA, dot, topkIdx, argsortDesc, insertRank,
      List.range_succ, List.range_zero]
  have htop1 : top1Row cfgA memC [(-1 : ℝ), 0] = 0 := by
    rw [top1Row, htk]
    rfl
  have hyh : yHatRow cfgA memC [(-1 : ℝ), 0] = 5 := by
    rw [yHatRow, htop1]
    rfl
  have hblend0 : normalize (vadd ([(1 : ℝ), 0]) ([(-1 : ℝ), 0])) = [0, 0] := by
    norm_num [vadd, normalize, norm2, normSq, dot, Real.sqrt_zero]
  have hfinal : (queryFn cfgA [0] [[-1, 0]] [5] true memC).2.2.2.keys = [[0, 0]] := by
    rw [queryFn_state, hq, List.map_cons, List.map_nil, List.map_cons, List.map_nil,
      hyh, htop1]
    unfold updateMem
    rw [if_pos (show incorrectRows [5] [5] = [] by decide)]
    unfold postCorrect
    rw [if_neg (by rw [show correctRows [5] [5] = [0] by decide]; simp)]
    rw [show correctRows [5] [5] = [0] by decide]
    simp only [List.map_cons, List.map_nil, List.getD_cons_zero]
    show scatter memC.keys [0] [normalize (vadd (memC.keys.getD 0 []) [(-1 : ℝ), 0])] = _
    rw [show memC.keys.getD 0 [] = [(1 : ℝ), 0] from rfl, hblend0]
    rfl
  refine ⟨?_, ?_, ?_⟩
  · intro v hv
    rw [List.mem_singleton] at hv
    rw [hv]
    intro hz
    have := hz (-1) (by simp)
    norm_num at this
  · intro k hk
    have hk' : k ∈ [([1, 0] : Vec)] := hk
    rw [List.mem_singleton] at hk'
    rw [hk']
    norm_num [normSq, dot]
  · intro hcon
    have := hcon [0, 0] (by rw [hfinal]; exact List.mem_singleton_self _)
    norm_num [normSq, dot] at this

/-- A two-slot configuration with top_k 2. -/
noncomputable def cfgD : Config :=
  { memory_size := 2, key_dim := 2, top_k := 2, softmax_temperature := 1
    age_noise := 8, margin := 1/10 }

/-- A two-slot memory whose keys both have negative similarity with `(1,0)`:
key 0 is `(-1,0)` with value 5, key 1 is `(-3/5,-4/5)` with value 7. -/
noncomputable def memD : Memory :=
  { keys := [[-1, 0], [-3/5, -4/5]], values := [5, 7], age := [0, 0] }

theorem scoresRow_memD : scoresRow memD [(1 : ℝ), 0] = [-1, -3/5] := by
  norm_num [scoresRow, memD, dot]

theorem topkRow_memD : topkRow cfgD memD [(1 : ℝ), 0] = [1, 0] := by
  rw [topkRow, scoresRow_memD]
  norm_num [topkIdx, argsortDesc, insertRank, List.range_succ, List.range_zero, cfgD]

theorem simsRow_memD : simsRow cfgD memD [(1 : ℝ), 0] = [-3/5, -1] := by
  rw [simsRow, topkRow_memD, scoresRow_memD]
  norm_num

theorem maskRow_memD : maskRow memD 5 [1, 0] = [0, 1] := by
  norm_num [maskRow, memD]

/-- C3 counterexample: for the query `(1,0)` on `memD`, the top-2 candidates
contain one matching value (slot 0, similarity -1) and one non-matching value
(slot 1, similarity -3/5), yet the positive score is 0, not -1, and the
negative score is 0, not -3/5: multiplying by the 0/1 mask lets the masked-out
zeros beat every negative similarity. -/
theorem C3_counterexample :
    (∃ i ∈ topkRow cfgD memD [(1 : ℝ), 0], memD.values.getD i 0 = 5) ∧
    (∃ i ∈ topkRow cfgD memD [(1 : ℝ), 0], memD.values.getD i 0 ≠ 5) ∧
    posScoreRow cfgD memD [(1 : ℝ), 0] 5 ≠
      listMax (((topkRow cfgD memD [(1 : ℝ), 0]).filter
        (fun i => memD.values.getD i 0 == 5)).map
        (fun i => (scoresRow memD [(1 : ℝ), 0]).getD i 0)) ∧
    negScoreRow cfgD memD [(1 : ℝ), 0] 5 ≠
      listMax (((topkRow cfgD memD [(1 : ℝ), 0]).filter
        (fun i => !(memD.values.getD i 0 == 5))).map
        (fun i => (scoresRow memD [(1 : ℝ), 0]).getD i 0)) := by
  have hposv : posScoreRow cfgD memD [(1 : ℝ), 0] 5 = 0 := by
    unfold posScoreRow
    rw [simsRow_memD, topkRow_memD, maskRow_memD]
    norm_num [listMax]
  have hnegv : negScoreRow cfgD memD [(1 : ℝ), 0] 5 = 0 := by
    unfold negScoreRow
    rw [simsRow_memD, topkRow_memD, maskRow_memD]
    norm_num [listMax]
  refine ⟨⟨0, by rw [topkRow_memD]; norm_num, by norm_num [memD]⟩,
    ⟨1, by rw [topkRow_memD]; norm_num, by norm_num [memD]⟩, ?_, ?_⟩
  · rw [hposv, topkRow_memD, scoresRow_memD]
    rw [show List.filter (fun i => memD.values.getD i 0 == 5) [1, 0] = [0] by
      simp only [show memD.values = [5, 7] from rfl]; decide]
    norm_num [listMax]
  · rw [hnegv, topkRow_memD, scoresRow_memD]
    rw [show List.filter (fun i => !(memD.values.getD i 0 == 5)) [1, 0] = [1] by
      simp only [show memD.values = [5, 7] from rfl]; decide]
    norm_num [listMax]

/-- C3 amended: when a row's top-k candidates contain both a matching and a
non-matching stored value, the positive score equals
`max(best matching similarity, 0)` and the negative score equals
`max(best non-matching similarity, 0)`: the mask multiplication floors both
scores at zero, so the claimed maxima are returned exactly when nonnegative. -/
theorem C3_amended (cfg : Config) (M : Memory) (q : Vec) (yv : ℤ)
    (hpos : ∃ i ∈ topkRow cfg M q, M.values.getD i 0 = yv)
    (hneg : ∃ i ∈ topkRow cfg M q, M.values.getD i 0 ≠ yv) :
    posScoreRow cfg M q yv =
      max (listMax (((topkRow cfg M q).filter (fun i => M.values.getD i 0 == yv)).map
        (fun i => (scoresRow M q).getD i 0))) 0 ∧
    negScoreRow cfg M q yv =
      max (listMax (((topkRow cfg M q).filter (fun i => !(M.values.getD i 0 == yv))).map
        (fun i => (scoresRow M q).getD i 0))) 0 := by
  constructor
  · unfold posScoreRow simsRow maskRow
    rw [zipWith_map_same]
    rw [show (fun i => (scoresRow M q).getD i 0 *
        (if M.values.getD i 0 = yv then (1 : ℝ) else 0)) =
        (fun i => if (M.values.getD i 0 == yv) then (scoresRow M q).getD i 0 else 0) by
      funext i
      by_cases h : M.values.getD i 0 = yv
      · rw [if_pos h, if_pos (beq_iff_eq.mpr h), mul_one]
      · rw [if_neg h, if_neg (by simpa using h), mul_zero]]
    apply listMax_masked
    · rcases hpos with ⟨i, hi, hp⟩
      exact ⟨i, hi, by simpa using hp⟩
    · rcases hneg with ⟨i, hi, hp⟩
      exact ⟨i, hi, by simpa using hp⟩
  · unfold negScoreRow simsRow maskRow
    rw [List.map_map, zipWith_map_same]
    rw [show (fun i => (scoresRow M q).getD i 0 *
        ((fun m => 1 - m) ∘ fun i => if M.values.getD i 0 = yv then (1 : ℝ) else 0) i) =
        (fun i => if !(M.values.getD i 0 == yv) then (scoresRow M q).getD i 0 else 0) by
      funext i
      simp only [Function.comp]
      by_cases h : M.values.getD i 0 = yv
      · rw [if_pos h, if_neg (show ¬(!(M.values.getD i 0 == yv)) = true by simpa using h)]
        ring
      · rw [if_neg h, if_pos (show (!(M.values.getD i 0 == yv)) = true by simpa using h)]
        ring]
    apply listMax_masked
    · rcases hneg with ⟨i, hi, hp⟩
      exact ⟨i, hi, by simpa using hp⟩
    · rcases hpos with ⟨i, hi, hp⟩
      exact ⟨i, hi, by simpa using hp⟩

/-- C3 witness: the amended masked-maximum form applied to the concrete query
`(1,0)` on `memD`, which has one matching and one non-matching candidate. -/
theorem C3_witness :
    ((∃ i ∈ topkRow cfgD memD [(1 : ℝ), 0], memD.values.getD i 0 = 5) ∧
     (∃ i ∈ topkRow cfgD memD [(1 : ℝ), 0], memD.values.getD i 0 ≠ 5)) ∧
    (posScoreRow cfgD memD [(1 : ℝ), 0] 5 =
      max (listMax (((topkRow cfgD memD [(1 : ℝ), 0]).filter
        (fun i => memD.values.getD i 0 == 5)).map
        (fun i => (scoresRow memD [(1 : ℝ), 0]).getD i 0))) 0 ∧
    negScoreRow cfgD memD [(1 : ℝ), 0] 5 =
      max (listMax (((topkRow cfgD memD [(1 : ℝ), 0]).filter
        (fun i => !(memD.values.getD i 0 == 5))).map
        (fun i => (scoresRow memD [(1 : ℝ), 0]).getD i 0))) 0) :=
  ⟨⟨⟨0, by rw [topkRow_memD]; norm_num, by norm_num [memD]⟩,
    ⟨1, by rw [topkRow_memD]; norm_num, by norm_num [memD]⟩⟩,
   C3_amended cfgD memD [(1 : ℝ), 0] 5
     ⟨0, by rw [topkRow_memD]; norm_num, by norm_num [memD]⟩
     ⟨1, by rw [topkRow_memD]; norm_num, by norm_num [memD]⟩⟩

/-- A two-slot memory: key `(1,0)` with value 5, key `(0,-1)` with value 7. -/
noncomputable def memE : Memory :=
  { keys := [[1, 0], [0, -1]], values := [5, 7], age := [0, 0] }

theorem normalize_row725 : normalize [(-7/25 : ℝ), 24/25] = [-7/25, 24/25] := by
  norm_num [normalize, norm2, normSq, dot, Real.sqrt_one]

theorem topkRow_memE_r0 : topkRow cfgD memE [(1 : ℝ), 0] = [0, 1] := by
  norm_num [topkRow, scoresRow, memE, cfgD, dot, topkIdx, argsortDesc, insertRank,
    List.range_succ, List.range_zero]

theorem topkRow_memE_r1 : topkRow cfgD memE [(-7/25 : ℝ), 24/25] = [0, 1] := by
  norm_num [topkRow, scoresRow, memE, cfgD, dot, topkIdx, argsortDesc, insertRank,
    List.range_succ, List.range_zero]

theorem yHatRow_memE_r0 : yHatRow cfgD memE [(1 : ℝ), 0] = 5 := by
  rw [yHatRow, top1Row, topkRow_memE_r0]
  rfl

theorem yHatRow_memE_r1 : yHatRow cfgD memE [(-7/25 : ℝ), 24/25] = 5 := by
  rw [yHatRow, top1Row, topkRow_memE_r1]
  rfl

theorem top1Row_memE_r0 : top1Row cfgD memE [(1 : ℝ), 0] = 0 := by
  rw [top1Row, topkRow_memE_r0]
  rfl

theorem top1Row_memE_r1 : top1Row cfgD memE [(-7/25 : ℝ), 24/25] = 0 := by
  rw [top1Row, topkRow_memE_r1]
  rfl

theorem blend_e1_e1 : normalize (vadd [(1 : ℝ), 0] [(1 : ℝ), 0]) = [1, 0] := by
  norm_num [vadd, normalize, norm2, normSq, dot, sqrt_four]

theorem blend_e1_row725 :
    normalize (vadd [(1 : ℝ), 0] [(-7/25 : ℝ), 24/25]) = [3/5, 4/5] := by
  have h65 : Real.sqrt (36/25) = 6/5 := by
    rw [show (36/25 : ℝ) = (6/5) ^ 2 by norm_num, Real.sqrt_sq (by norm_num)]
  norm_num [vadd, normalize, norm2, normSq, dot, h65]

/-- C4 counterexample: two correct rows share top-1 slot 0; the second row's
write overwrites the first, so slot 0 does not end the call holding the first
correct row's blend, refuting the claim quantified over every correct row. -/
theorem C4_counterexample :
    yHatRow cfgD memE [(1 : ℝ), 0] = 5 ∧
    top1Row cfgD memE [(1 : ℝ), 0] = 0 ∧
    yHatRow cfgD memE [(-7/25 : ℝ), 24/25] = 5 ∧
    top1Row cfgD memE [(-7/25 : ℝ), 24/25] = 0 ∧
    (queryFn cfgD [0, 0] [[1, 0], [-7/25, 24/25]] [5, 5] true memE).2.2.2.keys.getD 0 []
      ≠ normalize (vadd (memE.keys.getD 0 []) (normalize [(1 : ℝ), 0])) := by
  have hqmap : ([[1, 0], [-7/25, 24/25]] : List Vec).map normalize =
      [[1, 0], [-7/25, 24/25]] := by
    rw [List.map_cons, List.map_cons, List.map_nil, normalize_e1, normalize_row725]
  have hyhmap : ([[1, 0], [-7/25, 24/25]] : List Vec).map
      (fun q => yHatRow cfgD memE q) = [5, 5] := by
    rw [List.map_cons, List.map_cons, List.map_nil, yHatRow_memE_r0, yHatRow_memE_r1]
  have hidxmap : ([[1, 0], [-7/25, 24/25]] : List Vec).map
      (fun q => top1Row cfgD memE q) = [0, 0] := by
    rw [List.map_cons, List.map_cons, List.map_nil, top1Row_memE_r0, top1Row_memE_r1]
  have hstate : (queryFn cfgD [0, 0] [[1, 0], [-7/25, 24/25]] [5, 5] true memE).2.2.2 =
      updateMem [0, 0] [[1, 0], [-7/25, 24/25]] [5, 5] [5, 5] [0, 0] memE := by
    rw [queryFn_state, hqmap, hyhmap, hidxmap]
  have hupd : updateMem [0, 0] [[1, 0], [-7/25, 24/25]] [5, 5] [5, 5] [0, 0] memE =
      postCorrect [[1, 0], [-7/25, 24/25]] [5, 5] [5, 5] [0, 0] memE := by
    unfold updateMem
    rw [if_pos (show incorrectRows [5, 5] [5, 5] = [] by decide)]
  have hkeys : (postCorrect [[1, 0], [-7/25, 24/25]] [5, 5] [5, 5] [0, 0] memE).keys =
      [[3/5, 4/5], [0, -1]] := by
    unfold postCorrect
    rw [if_neg (by rw [show correctRows [5, 5] [5, 5] = [0, 1] by decide]; simp)]
    rw [show correctRows [5, 5] [5, 5] = [0, 1] by decide]
    simp only [List.map_cons, List.map_nil, List.getD_cons_zero, List.getD_cons_succ]
    rw [show memE.keys.getD 0 [] = [(1 : ℝ), 0] from rfl, blend_e1_e1, blend_e1_row725]
    rfl
  refine ⟨yHatRow_memE_r0, top1Row_memE_r0, yHatRow_memE_r1, top1Row_memE_r1, ?_⟩
  rw [hstate, hupd]
  show (postCorrect [[1, 0], [-7/25, 24/25]] [5, 5] [5, 5] [0, 0] memE).keys.getD 0 []
      ≠ _
  rw [hkeys, normalize_e1,
    show memE.keys.getD 0 [] = [(1 : ℝ), 0] from rfl, blend_e1_e1]
  intro hcon
  have := List.head_eq_of_cons_eq hcon
  norm_num at this

theorem topkRow_memC : topkRow cfgA memC [(1 : ℝ), 0] = [0] := by
  norm_num [topkRow, scoresRow, memC, cfgA, dot, topkIdx, argsortDesc, insertRank,
    List.range_succ, List.range_zero]

theorem yHatRow_memC : yHatRow cfgA memC [(1 : ℝ), 0] = 5 := by
  rw [yHatRow, top1Row, topkRow_memC]
  rfl

theorem top1Row_memC : top1Row cfgA memC [(1 : ℝ), 0] = 0 := by
  rw [top1Row, topkRow_memC]
  rfl

/-- C10 counterexample: two identical correct rows share slot 0; the final key
equals the blend of both rows, so there is no unique row whose blend the slot
holds, refuting the "exactly one of those rows" reading of the claim. -/
theorem C10_counterexample :
    ¬ (∃! i, i ∈ correctRows [5, 5]
        ((([[1, 0], [1, 0]] : List Vec).map normalize).map
          (fun q => yHatRow cfgA memC q)) ∧
      (queryFn cfgA [0] [[1, 0], [1, 0]] [5, 5] true memC).2.2.2.keys.getD 0 [] =
        normalize (vadd (memC.keys.getD 0 [])
          ((([[1, 0], [1, 0]] : List Vec).map normalize).getD i []))) := by
  have hqmap : ([[1, 0], [1, 0]] : List Vec).map normalize = [[1, 0], [1, 0]] := by
    rw [List.map_cons, List.map_cons, List.map_nil, normalize_e1]
  have hyhmap : ([[1, 0], [1, 0]] : List Vec).map (fun q => yHatRow cfgA memC q) =
      [5, 5] := by
    rw [List.map_cons, List.map_cons, List.map_nil, yHatRow_memC]
  have hidxmap : ([[1, 0], [1, 0]] : List Vec).map (fun q => top1Row cfgA memC q) =
      [0, 0] := by
    rw [List.map_cons, List.map_cons, List.map_nil, top1Row_memC]
  have hstate : (queryFn cfgA [0] [[1, 0], [1, 0]] [5, 5] true memC).2.2.2 =
      updateMem [0] [[1, 0], [1, 0]] [5, 5] [5, 5] [0, 0] memC := by
    rw [queryFn_state, hqmap, hyhmap, hidxmap]
  have hkeys : (queryFn cfgA [0] [[1, 0], [1, 0]] [5, 5] true memC).2.2.2.keys =
      [[1, 0]] := by
    rw [hstate]
    unfold updateMem
    rw [if_pos (show incorrectRows [5, 5] [5, 5] = [] by decide)]
    unfold postCorrect
    rw [if_neg (by rw [show correctRows [5, 5] [5, 5] = [0, 1] by decide]; simp)]
    rw [show correctRows [5, 5] [5, 5] = [0, 1] by decide]
    simp only [List.map_cons, List.map_nil, List.getD_cons_zero, List.getD_cons_succ]
    rw [show memC.keys.getD 0 [] = [(1 : ℝ), 0] from rfl, blend_e1_e1]
    rfl
  intro hcon
  obtain ⟨i, _, huni⟩ := hcon
  have hP : ∀ r : ℕ, r ∈ ([0, 1] : List ℕ) →
      (r ∈ correctRows [5, 5]
        ((([[1, 0], [1, 0]] : List Vec).map normalize).map
          (fun q => yHatRow cfgA memC q)) ∧
      (queryFn cfgA [0] [[1, 0], [1, 0]] [5, 5] true memC).2.2.2.keys.getD 0 [] =
        normalize (vadd (memC.keys.getD 0 [])
          ((([[1, 0], [1, 0]] : List Vec).map normalize).getD r []))) := by
    intro r hr
    constructor
    · rw [hqmap, hyhmap]
      rw [show correctRows [5, 5] [5, 5] = [0, 1] by decide]
      exact hr
    · rw [hkeys, hqmap]
      rcases List.mem_cons.mp hr with h | h
      · rw [h]
        rw [show ([[1, 0], [1, 0]] : List Vec).getD 0 [] = [(1 : ℝ), 0] from rfl,
          show memC.keys.getD 0 [] = [(1 : ℝ), 0] from rfl, blend_e1_e1]
        rfl
      · rw [List.mem_singleton] at h
        rw [h]
        rw [show ([[1, 0], [1, 0]] : List Vec).getD 1 [] = [(1 : ℝ), 0] from rfl,
          show memC.keys.getD 0 [] = [(1 : ℝ), 0] from rfl, blend_e1_e1]
        rfl
  have h0 := huni 0 (hP 0 (by norm_num))
  have h1 := huni 1 (hP 1 (by norm_num))
  omega

theorem topkRow_memB_r0 : topkRow cfgB memB [(1 : ℝ), 0] = [0, 1] := by
  norm_num [topkRow, scoresRow, memB, cfgB, dot, topkIdx, argsortDesc, insertRank,
    List.range_succ, List.range_zero]

theorem topkRow_memB_r1 : topkRow cfgB memB [(0 : ℝ), 1] = [1, 0] := by
  norm_num [topkRow, scoresRow, memB, cfgB, dot, topkIdx, argsortDesc, insertRank,
    List.range_succ, List.range_zero]

theorem yHatRow_memB_r0 : yHatRow cfgB memB [(1 : ℝ), 0] = 5 := by
  rw [yHatRow, top1Row, topkRow_memB_r0]
  rfl

theorem yHatRow_memB_r1 : yHatRow cfgB memB [(0 : ℝ), 1] = 7 := by
  rw [yHatRow, top1Row, topkRow_memB_r1]
  rfl

theorem top1Row_memB_r0 : top1Row cfgB memB [(1 : ℝ), 0] = 0 := by
  rw [top1Row, topkRow_memB_r0]
  rfl

theorem top1Row_memB_r1 : top1Row cfgB memB [(0 : ℝ), 1] = 1 := by
  rw [top1Row, topkRow_memB_r1]
  rfl

/-- C1: evaluation of the code at the failing input.  The batch has one
correct row (query `(1,0)`, label 5, matching slot 0) and one incorrect row
(query `(0,1)`, label 9, predicted 7), so m = 1, yet the replacement step
selects `batch_size = 2` slots (slots 1 and 2 under noise `(-1,5,0)`) and
overwrites both with the **whole batch**: slot 1 receives the correct row's
query `(1,0)` and label 5, contradicting the claim that rows predicted
correctly contribute no replacement write and that exactly m slots change. -/
theorem C1_code_eval :
    incorrectRows [5, 9] ((([[1, 0], [0, 1]] : List Vec).map normalize).map
      (fun q => yHatRow cfgB memB q)) = [1] ∧
    (queryFn cfgB [-1, 5, 0] [[1, 0], [0, 1]] [5, 9] true memB).2.2.2.values =
      [5, 5, 9] ∧
    (queryFn cfgB [-1, 5, 0] [[1, 0], [0, 1]] [5, 9] true memB).2.2.2.keys.getD 1 []
      = [1, 0] := by
  have hqmap : ([[1, 0], [0, 1]] : List Vec).map normalize = [[1, 0], [0, 1]] := by
    rw [List.map_cons, List.map_cons, List.map_nil, normalize_e1, normalize_e2]
  have hyhmap : ([[1, 0], [0, 1]] : List Vec).map (fun q => yHatRow cfgB memB q) =
      [5, 7] := by
    rw [List.map_cons, List.map_cons, List.map_nil, yHatRow_memB_r0, yHatRow_memB_r1]
  have hidxmap : ([[1, 0], [0, 1]] : List Vec).map (fun q => top1Row cfgB memB q) =
      [0, 1] := by
    rw [List.map_cons, List.map_cons, List.map_nil, top1Row_memB_r0, top1Row_memB_r1]
  have hstate : (queryFn cfgB [-1, 5, 0] [[1, 0], [0, 1]] [5, 9] true memB).2.2.2 =
      updateMem [-1, 5, 0] [[1, 0], [0, 1]] [5, 9] [5, 7] [0, 1] memB := by
    rw [queryFn_state, hqmap, hyhmap, hidxmap]
  have hcr : correctRows [5, 9] [5, 7] = [0] := by decide
  have hir : incorrectRows [5, 9] [5, 7] = [1] := by decide
  have hpckeys : (postCorrect [[1, 0], [0, 1]] [5, 9] [5, 7] [0, 1] memB).keys =
      [[1, 0], [0, 1], [0, -1]] := by
    unfold postCorrect
    rw [if_neg (by rw [hcr]; simp)]
    rw [hcr]
    simp only [List.map_cons, List.map_nil, List.getD_cons_zero]
    rw [show memB.keys.getD 0 [] = [(1 : ℝ), 0] from rfl, blend_e1_e1]
    rfl
  have hpcage : (postCorrect [[1, 0], [0, 1]] [5, 9] [5, 7] [0, 1] memB).age =
      [0, 1, 1] := by
    unfold postCorrect
    rw [if_neg (by rw [hcr]; simp)]
    rw [hcr]
    simp only [List.map_cons, List.map_nil, List.getD_cons_zero]
    norm_num [resetZeros, writeList, memB]
  have htgt : evictTargets [-1, 5, 0] ([[1, 0], [0, 1]] : List Vec).length
      (postCorrect [[1, 0], [0, 1]] [5, 9] [5, 7] [0, 1] memB) = [1, 2] := by
    unfold evictTargets
    rw [hpcage]
    norm_num [topkIdx, argsortDesc, insertRank, List.range_succ, List.range_zero]
  have hupd : updateMem [-1, 5, 0] [[1, 0], [0, 1]] [5, 9] [5, 7] [0, 1] memB =
      { keys := scatter (postCorrect [[1, 0], [0, 1]] [5, 9] [5, 7] [0, 1] memB).keys
          [1, 2] [[1, 0], [0, 1]]
        values := scatter (postCorrect [[1, 0], [0, 1]] [5, 9] [5, 7] [0, 1] memB).values
          [1, 2] [5, 9]
        age := resetZeros (postCorrect [[1, 0], [0, 1]] [5, 9] [5, 7] [0, 1] memB).age
          [1, 2] } := by
    unfold updateMem
    rw [if_neg (by rw [hir]; simp)]
    rw [htgt]
  refine ⟨?_, ?_, ?_⟩
  · rw [hqmap, hyhmap]
    exact hir
  · rw [hstate, hupd]
    show scatter (postCorrect [[1, 0], [0, 1]] [5, 9] [5, 7] [0, 1] memB).values
      [1, 2] [5, 9] = [5, 5, 9]
    rw [values_postCorrect, show memB.values = [5, 7, 7] from rfl]
    decide
  · rw [hstate, hupd]
    show (scatter (postCorrect [[1, 0], [0, 1]] [5, 9] [5, 7] [0, 1] memB).keys
      [1, 2] [[1, 0], [0, 1]]).getD 1 [] = [1, 0]
    rw [hpckeys]
    rfl

end LSHMem
